import Mathlib

/-!
# Inventory stores: channel-owned map versus lock-guarded map

A shallow embedding of the two Go programs

* `07-mutexes-vs-channels/01-using-channels/main.go` (namespace `Channels`), and
* `07-mutexes-vs-channels/02-using-mutexes/main.go` (namespace `Mutexes`),

together with the properties of their `Update` / `Read` operations.

Go's built-in `map[string]int` is embedded as a function from keys to optional values, so two
maps are equal exactly when every lookup agrees.  Go's `int` values are only stored and
returned, never computed with, so they are embedded as `Int`.
-/

/-- A non-nil Go `map[string]int`: `m k = none` when `k` is absent. -/
abbrev Inventory := String → Option Int

/-- The map literal `map[string]int{}`. -/
def Inventory.empty : Inventory := fun _ => none

/-- The assignment `m[name] = val` on a non-nil map. -/
def Inventory.assign (m : Inventory) (name : String) (val : Int) : Inventory :=
  fun k => if k = name then some val else m k

/-- The two-valued index expression `out, ok := m[name]`: the zero value and `false` when
`name` is absent. -/
def Inventory.index (m : Inventory) (name : String) : Int × Bool :=
  match m name with
  | some v => (v, true)
  | none => (0, false)

namespace Channels

/-- The value `Result{out, ok}` that the closure built by `Read` sends on `resultCh`. -/
abbrev Result := Int × Bool

/-- A value of type `func(map[string]int)` as sent over the channel: run on the owner's map it
yields the map afterwards and, when it performs `resultCh <- r`, the value `r` sent. -/
abbrev Closure := Inventory → Inventory × Option Result

/-- The closure `func(m map[string]int) { m[name] = val }` that `Update` sends. -/
def updateClosure (name : String) (val : Int) : Closure :=
  fun m => (m.assign name val, none)

/-- The closure `func(m map[string]int) { out, ok := m[name]; resultCh <- Result{out, ok} }`
that `Read` sends. -/
def readClosure (name : String) : Closure :=
  fun m => (m, some (m.index name))

/-- The operations a caller can submit through the `InventoryManager` channel type. -/
inductive Op where
  | update (name : String) (val : Int)
  | read (name : String)
deriving DecidableEq, Repr

/-- The closure that the method call puts on the channel. -/
def Op.closure : Op → Closure
  | .update name val => updateClosure name val
  | .read name => readClosure name

/-- The key an operation assigns to, if any. -/
def Op.written : Op → Option String
  | .update name _ => some name
  | .read _ => none

/-- One pass through `case f := <-in: f(inventory)`: the owner's map afterwards. -/
def applyClosure (inventory : Inventory) (f : Closure) : Inventory :=
  (f inventory).1

/-- The owner's map after it has dequeued and run the closures `fs`, in this order. -/
def applyAll (inventory : Inventory) (fs : List Closure) : Inventory :=
  fs.foldl applyClosure inventory

/-- The owner's map after `inventoryManager` has started (`inventory := map[string]int{}`) and
run the closures of `ops` in the order it dequeued them. -/
def inventoryManager (ops : List Op) : Inventory :=
  applyAll Inventory.empty (ops.map Op.closure)

/-- The value `Read(name)` returns, given that the owner has received its closure and runs it
on the map `inventory`: `result := <-resultCh; return result.out, result.ok`.  This is the
reply alone.  Whether the owner ever receives the closure (`cim <- f` blocks until it does, and
for ever once the owner has returned) is a matter of the transition system below, where the
reply appears in `Owner.replies` when `select` receives the closure. -/
def Read (inventory : Inventory) (name : String) : Option (Int × Bool) :=
  (readClosure name inventory).2

/-- The two states of the owner goroutine running `inventoryManager`: inside the `for` loop, or
returned. -/
inductive Phase where
  | Running
  | Terminated
deriving DecidableEq, Repr

/-- The owner goroutine together with what its `select` waits on. -/
structure Owner where
  /-- Whether `inventoryManager` is still in its loop. -/
  phase : Phase
  /-- The local variable `inventory`. -/
  inventory : Inventory
  /-- Whether `ctx.Done()` is closed, that is, whether the cancellation signal has fired. -/
  done : Bool
  /-- The closures of the callers currently blocked in `cim <- f` on the unbuffered channel. -/
  waiting : List Closure
  /-- The values sent on reply channels so far, oldest first. -/
  replies : List Result

/-- The state right after `NewChannelScoreboardManager`: `inventory := map[string]int{}`, the
context not cancelled, nobody sending yet. -/
def Owner.start : Owner :=
  { phase := .Running, inventory := Inventory.empty, done := false, waiting := [], replies := [] }

/-- A communication of the `select` statement that can proceed: the receive from `ctx.Done()`,
or the receive from `in` of the closure offered by the `i`-th waiting sender. -/
inductive Ready where
  | ctxDone
  | recv (i : Nat)
deriving DecidableEq, Repr

/-- One execution of the `select` in `inventoryManager`, given the communication Go picked.
Go picks among the communications that can proceed (uniformly at random when there are
several); the result is `none` when the picked one cannot proceed, or when the owner has
already returned.

* `case <-ctx.Done(): return` needs the context cancelled and ends the loop;
* `case f := <-in: f(inventory)` needs a waiting sender, runs its closure on the map and stays
  in the loop. -/
def select (pick : Ready) (o : Owner) : Option Owner :=
  match o.phase with
  | .Terminated => none
  | .Running =>
    match pick with
    | .ctxDone => if o.done then some { o with phase := .Terminated } else none
    | .recv i =>
      match o.waiting[i]? with
      | none => none
      | some f =>
        some { o with
          inventory := (f o.inventory).1
          waiting := o.waiting.eraseIdx i
          replies := o.replies ++ (f o.inventory).2.toList }

/-- Everything that can happen to the system: the owner executes its `select`, the context is
cancelled, or a caller starts sending a closure. -/
inductive Event where
  | select (pick : Ready)
  | cancel
  | send (f : Closure)

/-- The effect of one event; `none` when the event cannot happen in this state. -/
def step (e : Event) (o : Owner) : Option Owner :=
  match e with
  | .select pick => select pick o
  | .cancel => some { o with done := true }
  | .send f => some { o with waiting := o.waiting ++ [f] }

/-- The step relation of the system. -/
def Step (o o' : Owner) : Prop := ∃ e, step e o = some o'

/-- Reachability: zero or more steps. -/
def Reach (o o' : Owner) : Prop := Relation.ReflTransGen Step o o'

/-- The state used to test cancellation with an operation already waiting: the signal has fired
and the closure of `Update("a", 1)` is blocked on the channel. -/
def cancelledWithPending : Owner :=
  { phase := .Running, inventory := Inventory.empty, done := true,
    waiting := [updateClosure "a" 1], replies := [] }

/-- The state `cancelledWithPending` after the owner has taken `case <-ctx.Done()`. -/
def terminatedWithPending : Owner :=
  { cancelledWithPending with phase := .Terminated }

/-- The state `terminatedWithPending` after one more caller has started `Read("a")`. -/
def terminatedAfterSend : Owner :=
  { terminatedWithPending with waiting := [updateClosure "a" 1, readClosure "a"] }

/-- The signal has fired while the owner is in its loop and nobody is sending. -/
def cancelledIdle : Owner :=
  { phase := .Running, inventory := Inventory.empty.assign "a" 1, done := true,
    waiting := [], replies := [] }

/-- The owner executes its `select` once per entry of `picks`, each time receiving from the
waiting sender at that position; `none` when one of these receives cannot proceed. -/
def dequeue : List Nat → Owner → Option Owner
  | [], o => some o
  | i :: rest, o => (select (.recv i) o).bind (dequeue rest)

/-- The order in which the entries of `xs` leave the queue when the positions `picks` are
received one after the other. -/
def takeOrder {α : Type} : List Nat → List α → List α
  | [], _ => []
  | i :: rest, xs =>
    match xs[i]? with
    | none => []
    | some x => x :: takeOrder rest (xs.eraseIdx i)

/-- A run of the system: the events happen one after the other; `none` when one of them cannot
happen. -/
def runEvents : List Event → Owner → Option Owner
  | [], o => some o
  | e :: rest, o => (step e o).bind (runEvents rest)

/-- The closure the owner receives in this event, if any. -/
def Event.received (e : Event) (o : Owner) : List Closure :=
  match e with
  | .select (.recv i) => o.waiting[i]?.toList
  | _ => []

/-- The closures the owner receives during a run, in the order in which it receives them. -/
def received : List Event → Owner → List Closure
  | [], _ => []
  | e :: rest, o =>
    match step e o with
    | none => []
    | some o1 => e.received o ++ received rest o1

/-- A run in which three callers send `Update("k0", 0)`, `Update("k1", 1)`, `Update("k2", 2)`,
the owner receives the third, then the first, then the second, and a caller then starts
`Read("k2")`. -/
def distinctRun : List Event :=
  [.send (updateClosure "k0" 0), .send (updateClosure "k1" 1), .send (updateClosure "k2" 2),
    .select (.recv 2), .select (.recv 0), .select (.recv 0), .send (readClosure "k2")]

/-- The state at the end of `distinctRun`. -/
def distinctRunEnd : Owner :=
  { Owner.start with
    inventory := ((Inventory.empty.assign "k2" 2).assign "k0" 0).assign "k1" 1
    waiting := [readClosure "k2"] }

/-- A run in which a caller sends `Update("k", 5)`, the owner receives it, two callers send
`Update("k", 9)` and `Update("k", 7)`, the owner receives the later one first, and a caller
then starts `Read("k")`. -/
def sameKeyRun : List Event :=
  [.send (updateClosure "k" 5), .select (.recv 0), .send (updateClosure "k" 9),
    .send (updateClosure "k" 7), .select (.recv 1), .select (.recv 0),
    .send (readClosure "k")]

/-- The state at the end of `sameKeyRun`. -/
def sameKeyRunEnd : Owner :=
  { Owner.start with
    inventory := ((Inventory.empty.assign "k" 5).assign "k" 7).assign "k" 9
    waiting := [readClosure "k"] }

/-- The run in which `Update("k0", 0)` and `Update("k1", 1)` are sent and applied (the second
one first), the context is cancelled, the owner returns, and only then `Read("k1")` is
called. -/
def distinctThenCancel : List Event :=
  [.send (updateClosure "k0" 0), .send (updateClosure "k1" 1), .select (.recv 1),
    .select (.recv 0), .cancel, .select .ctxDone, .send (readClosure "k1")]

/-- The state at the end of `distinctThenCancel`. -/
def distinctUnanswered : Owner :=
  { phase := .Terminated, inventory := (Inventory.empty.assign "k1" 1).assign "k0" 0,
    done := true, waiting := [readClosure "k1"], replies := [] }

/-- The run in which `Update("k", 5)` and `Update("k", 9)` are sent and applied in this order,
the context is cancelled, the owner returns, and only then `Read("k")` is called. -/
def sameKeyThenCancel : List Event :=
  [.send (updateClosure "k" 5), .send (updateClosure "k" 9), .select (.recv 0),
    .select (.recv 0), .cancel, .select .ctxDone, .send (readClosure "k")]

/-- The state at the end of `sameKeyThenCancel`. -/
def sameKeyUnanswered : Owner :=
  { phase := .Terminated, inventory := (Inventory.empty.assign "k" 5).assign "k" 9,
    done := true, waiting := [readClosure "k"], replies := [] }

end Channels

namespace Mutexes

/-- The state of a `sync.RWMutex`, as far as callers can observe it: whether it is held for
writing and how many readers hold it. -/
structure RWMutex where
  writer : Bool
  readers : Nat
deriving DecidableEq, Repr

/-- The zero value of `sync.RWMutex`: an unlocked mutex. -/
def RWMutex.free : RWMutex := { writer := false, readers := 0 }

/-- The call `mu.Lock()`: takes the mutex for writing when nobody holds it; `none` means the
caller blocks. -/
def RWMutex.Lock (mu : RWMutex) : Option RWMutex :=
  if mu.writer = false ∧ mu.readers = 0 then some { mu with writer := true } else none

/-- The call `mu.RLock()`: adds a reader when the mutex is not held for writing; `none` means the
caller blocks.  Go's mutex also keeps a new reader waiting while a writer is waiting in
`Lock`; this state does not record waiting writers, so it lets such a reader in.  That only
adds behaviours: a property shown of every interleaving here holds of Go's mutex too. -/
def RWMutex.RLock (mu : RWMutex) : Option RWMutex :=
  if mu.writer = false then some { mu with readers := mu.readers + 1 } else none

/-- The call `mu.RUnlock()`: removes a reader; `none` is the fatal error
"sync: RUnlock of unlocked RWMutex". -/
def RWMutex.RUnlock (mu : RWMutex) : Option RWMutex :=
  if 0 < mu.readers then some { mu with readers := mu.readers - 1 } else none

/-- The struct `InventoryManager`; `inventory = none` is the nil map of the zero value. -/
structure InventoryManager where
  mu : RWMutex
  inventory : Option Inventory

/-- The zero value `InventoryManager{}`, which is what `new(InventoryManager)` or a plain
variable declaration gives: the file has no constructor. -/
def InventoryManager.zero : InventoryManager := { mu := RWMutex.free, inventory := none }

/-- The literal `InventoryManager{inventory: map[string]int{}}`. -/
def InventoryManager.fresh : InventoryManager :=
  { mu := RWMutex.free, inventory := some Inventory.empty }

/-- What a call did, step by step. -/
inductive Action where
  | Lock
  | Unlock
  | RLock
  | RUnlock
  | assign
  | index
  | panic
deriving DecidableEq, Repr

/-- How a call ends: it returns a value, it blocks forever inside a lock operation, it leaves
by a panic, or the runtime stops the program with a fatal error. -/
inductive Exit (α : Type) where
  | returned (a : α)
  | blocked
  | panicked
  | fatal
deriving DecidableEq, Repr

/-- The record of one call: the struct when the call stops, what the call did, and how it
ended. -/
structure Run (α : Type) where
  mim : InventoryManager
  trace : List Action
  exit : Exit α

/-- The read `val, ok := mim.inventory[name]`, which on a nil map yields the zero value and
`false`. -/
def index (inventory : Option Inventory) (name : String) : Int × Bool :=
  match inventory with
  | none => (0, false)
  | some m => m.index name

/-- The method `Update`:
```
mim.mu.Lock()
defer mim.mu.Lock()
mim.inventory[name] = val
```
The deferred call is `mim.mu.Lock()`; it runs when the body is done and also when the body
panics (an assignment to an entry of a nil map panics). -/
def Update (mim : InventoryManager) (name : String) (val : Int) : Run Unit :=
  match mim.mu.Lock with
  | none => { mim := mim, trace := [], exit := .blocked }
  | some mu1 =>
    let mim1 : InventoryManager := { mim with mu := mu1 }
    match mim1.inventory with
    | none =>
      match mim1.mu.Lock with
      | none => { mim := mim1, trace := [.Lock, .panic], exit := .blocked }
      | some mu2 =>
        { mim := { mim1 with mu := mu2 }, trace := [.Lock, .panic, .Lock], exit := .panicked }
    | some m =>
      let mim2 : InventoryManager := { mim1 with inventory := some (m.assign name val) }
      match mim2.mu.Lock with
      | none => { mim := mim2, trace := [.Lock, .assign], exit := .blocked }
      | some mu2 =>
        { mim := { mim2 with mu := mu2 }, trace := [.Lock, .assign, .Lock],
          exit := .returned () }

/-- The method `Read`:
```
mim.mu.RLock()
defer mim.mu.RUnlock()
val, ok := mim.inventory[name]
return val, ok
```
-/
def Read (mim : InventoryManager) (name : String) : Run (Int × Bool) :=
  match mim.mu.RLock with
  | none => { mim := mim, trace := [], exit := .blocked }
  | some mu1 =>
    let mim1 : InventoryManager := { mim with mu := mu1 }
    let result := index mim1.inventory name
    match mim1.mu.RUnlock with
    | none => { mim := mim1, trace := [.RLock, .index], exit := .fatal }
    | some mu2 =>
      { mim := { mim1 with mu := mu2 }, trace := [.RLock, .index, .RUnlock],
        exit := .returned result }

/-- A method call on the store. -/
inductive Call where
  | update (name : String) (val : Int)
  | read (name : String)
deriving DecidableEq, Repr

/-- The struct after a call has run as far as it gets (until it returns, blocks or panics). -/
def Call.after (mim : InventoryManager) : Call → InventoryManager
  | .update name val => (Update mim name val).mim
  | .read name => (Read mim name).mim

/-- The struct after a sequence of calls, each issued on a goroutine of its own and each run as
far as it gets before the next one starts. -/
def runCalls (mim : InventoryManager) (calls : List Call) : InventoryManager :=
  calls.foldl Call.after mim

/-! ### Concurrent callers

Any number of goroutines call `Update` and `Read` on one store.  A caller is followed through
its method statement by statement; a state of the system is the mutex, the map and the place
where each caller stands; one move is one caller executing its next statement. -/

/-- Where a caller stands inside its method. -/
inductive Position where
  /-- The method is entered; the first statement (`Lock` or `RLock`) is still to come. -/
  | start
  /-- The mutex is taken; the statement that touches the map is in progress. -/
  | access
  /-- The body is over; the deferred call is still to come.  `panicking` tells whether the
  body ended in a panic. -/
  | deferred (panicking : Bool)
  /-- The method has returned. -/
  | returned
  /-- The method was left by a panic. -/
  | panicked
  /-- The runtime has stopped the program in this call. -/
  | fatal
deriving DecidableEq, Repr

/-- A goroutine inside one method call. -/
structure Caller where
  call : Call
  pos : Position
  /-- The values `val, ok` once `Read` has computed them. -/
  result : Option (Int × Bool)
deriving DecidableEq, Repr

/-- The store together with its callers. -/
structure System where
  mu : RWMutex
  inventory : Option Inventory
  callers : List Caller

/-- The calls `calls` have all been started on a store with an unlocked mutex and none of them
has executed a statement yet. -/
def System.init (inventory : Option Inventory) (calls : List Call) : System :=
  { mu := RWMutex.free, inventory := inventory,
    callers := calls.map fun call => { call := call, pos := .start, result := none } }

/-- Caller `i` executes its next statement; `none` when there is no such caller, when it is
blocked in a lock operation or when its call is over.

* `Update`, at `start`: `mim.mu.Lock()`;
* `Update`, at `access`: `mim.inventory[name] = val`, a panic on a nil map;
* `Update`, at `deferred`: the deferred `mim.mu.Lock()`;
* `Read`, at `start`: `mim.mu.RLock()`;
* `Read`, at `access`: `val, ok := mim.inventory[name]`;
* `Read`, at `deferred`: the deferred `mim.mu.RUnlock()`. -/
def move (i : Nat) (s : System) : Option System :=
  match s.callers[i]? with
  | none => none
  | some c =>
    match c.call with
    | .update name val =>
      match c.pos with
      | .start =>
        match s.mu.Lock with
        | none => none
        | some mu =>
          some { s with mu := mu, callers := s.callers.set i { c with pos := .access } }
      | .access =>
        match s.inventory with
        | none => some { s with callers := s.callers.set i { c with pos := .deferred true } }
        | some m =>
          some { s with
            inventory := some (m.assign name val)
            callers := s.callers.set i { c with pos := .deferred false } }
      | .deferred panicking =>
        match s.mu.Lock with
        | none => none
        | some mu =>
          some { s with
            mu := mu
            callers := s.callers.set i
              { c with pos := if panicking then .panicked else .returned } }
      | _ => none
    | .read name =>
      match c.pos with
      | .start =>
        match s.mu.RLock with
        | none => none
        | some mu =>
          some { s with mu := mu, callers := s.callers.set i { c with pos := .access } }
      | .access =>
        some { s with
          callers := s.callers.set i
            { c with pos := .deferred false, result := some (index s.inventory name) } }
      | .deferred _ =>
        match s.mu.RUnlock with
        | none => some { s with callers := s.callers.set i { c with pos := .fatal } }
        | some mu =>
          some { s with mu := mu, callers := s.callers.set i { c with pos := .returned } }
      | _ => none

/-- One move of some caller. -/
def Moves (s s' : System) : Prop := ∃ i, move i s = some s'

/-- Zero or more moves, in any interleaving of the callers. -/
def Reaches (s s' : System) : Prop := Relation.ReflTransGen Moves s s'

/-- The callers at the positions `order` move one after the other; `none` when one of them
cannot move. -/
def runMoves : List Nat → System → Option System
  | [], s => some s
  | i :: rest, s => (move i s).bind (runMoves rest)

/-- The caller is inside `Update` with the assignment to the map in progress. -/
def Caller.mutating (c : Caller) : Bool :=
  match c.call, c.pos with
  | .update _ _, .access => true
  | _, _ => false

/-- The caller is inside `Read` with the lookup in the map in progress. -/
def Caller.reading (c : Caller) : Bool :=
  match c.call, c.pos with
  | .read _, .access => true
  | _, _ => false

/-- The caller is inside `Update` between its `Lock` and the end of its deferred call. -/
def Caller.holdsWrite (c : Caller) : Bool :=
  match c.call, c.pos with
  | .update _ _, .access => true
  | .update _ _, .deferred _ => true
  | _, _ => false

/-- The caller is inside `Read` between its `RLock` and the end of its deferred call. -/
def Caller.holdsRead (c : Caller) : Bool :=
  match c.call, c.pos with
  | .read _, .access => true
  | .read _, .deferred _ => true
  | _, _ => false

/-- The mutex accounts for the callers inside their locked regions: it is held for writing
exactly when one caller is inside `Update`'s region and none otherwise, its reader count is the
number of callers inside `Read`'s region, and it is never held both ways. -/
structure Accounted (s : System) : Prop where
  writers : s.callers.countP Caller.holdsWrite = if s.mu.writer = true then 1 else 0
  readers : s.callers.countP Caller.holdsRead = s.mu.readers
  exclusive : s.mu.writer = true → s.mu.readers = 0

/-- Three calls on a store with an empty map, the first of them, `Update("a", 1)`, holding the
mutex with its assignment in progress. -/
def writerInside : System :=
  { mu := { writer := true, readers := 0 }, inventory := some Inventory.empty,
    callers :=
      [{ call := .update "a" 1, pos := .access, result := none },
        { call := .read "a", pos := .start, result := none },
        { call := .update "b" 2, pos := .start, result := none }] }

/-- Three calls on a store with an empty map, both `Read` calls holding the mutex with their
lookups in progress. -/
def readersInside : System :=
  { mu := { writer := false, readers := 2 }, inventory := some Inventory.empty,
    callers :=
      [{ call := .read "a", pos := .access, result := none },
        { call := .update "a" 1, pos := .start, result := none },
        { call := .read "b", pos := .access, result := none }] }

end Mutexes


/-! ## Properties of the channel-owned store -/

namespace Channels

theorem applyAll_nil (m : Inventory) : applyAll m [] = m := rfl

theorem applyAll_cons (m : Inventory) (f : Closure) (fs : List Closure) :
    applyAll m (f :: fs) = applyAll (applyClosure m f) fs := rfl

theorem applyAll_append (m : Inventory) (fs gs : List Closure) :
    applyAll m (fs ++ gs) = applyAll (applyAll m fs) gs := by
  simp [applyAll, List.foldl_append]

theorem applyClosure_update (m : Inventory) (name : String) (val : Int) :
    applyClosure m (updateClosure name val) = m.assign name val := rfl

theorem applyClosure_read (m : Inventory) (name : String) :
    applyClosure m (readClosure name) = m := rfl

theorem assign_same (m : Inventory) (name : String) (val : Int) :
    m.assign name val name = some val := by
  simp [Inventory.assign]

theorem assign_other (m : Inventory) (name k : String) (val : Int) (h : k ≠ name) :
    m.assign name val k = m k := by
  simp [Inventory.assign, h]

/-- What `Read` returns is the two-valued index of the owner's map. -/
theorem Read_eq (m : Inventory) (name : String) : Read m name = some (m.index name) := rfl

theorem index_of_some (m : Inventory) (k : String) (v : Int) (h : m k = some v) :
    m.index k = (v, true) := by
  simp [Inventory.index, h]

theorem index_of_none (m : Inventory) (k : String) (h : m k = none) :
    m.index k = (0, false) := by
  simp [Inventory.index, h]

/-- An operation that does not assign to `k` leaves the entry of `k` alone. -/
theorem applyClosure_other (m : Inventory) (op : Op) (k : String)
    (h : op.written ≠ some k) : applyClosure m op.closure k = m k := by
  cases op with
  | update name val =>
    have hk : k ≠ name := by
      intro e
      exact h (by simp [Op.written, e])
    simp [Op.closure, applyClosure_update, assign_other, hk]
  | read name => rfl

/-- A sequence of operations none of which assigns to `k` leaves the entry of `k` alone. -/
theorem applyAll_other (ops : List Op) (k : String)
    (h : ∀ op ∈ ops, op.written ≠ some k) (m : Inventory) :
    applyAll m (ops.map Op.closure) k = m k := by
  induction ops generalizing m with
  | nil => rfl
  | cons op rest ih =>
    have hrest : ∀ o ∈ rest, o.written ≠ some k := fun o ho => h o (List.mem_cons_of_mem _ ho)
    rw [List.map_cons, applyAll_cons, ih hrest]
    exact applyClosure_other m op k (h op (List.mem_cons_self _ _))

/-- C1: after any operations already applied from the empty map, once the owner applies the
closure of `Update(k, v)` and then only operations that do not write `k`, the closure of
`Read(k)` makes `Read` return `(v, true)`. -/
theorem read_after_update (k : String) (v : Int) (before between : List Op)
    (h : ∀ op ∈ between, op.written ≠ some k) :
    Read (inventoryManager (before ++ [Op.update k v] ++ between)) k = some (v, true) := by
  have hk : inventoryManager (before ++ [Op.update k v] ++ between) k = some v := by
    unfold inventoryManager
    rw [List.map_append, applyAll_append, applyAll_other between k h, List.map_append,
      applyAll_append]
    simp [applyAll, List.foldl, Op.closure, applyClosure_update, assign_same]
  rw [Read_eq, index_of_some _ k v hk]

theorem read_after_update_witness :
    (∀ op ∈ [Op.read "widgets", Op.update "gadgets" 7], op.written ≠ some "widgets") ∧
    Read (inventoryManager
      ([Op.update "widgets" 1] ++ [Op.update "widgets" 42] ++
        [Op.read "widgets", Op.update "gadgets" 7])) "widgets" = some (42, true) :=
  ⟨by decide, read_after_update "widgets" 42 [Op.update "widgets" 1]
    [Op.read "widgets", Op.update "gadgets" 7] (by decide)⟩

/-- A key outside a batch of updates keeps its entry. -/
theorem applyAll_updates_other (us : List (String × Int)) (k : String)
    (h : k ∉ us.map Prod.fst) (m : Inventory) :
    applyAll m (us.map fun kv => updateClosure kv.1 kv.2) k = m k := by
  induction us generalizing m with
  | nil => rfl
  | cons kv rest ih =>
    simp only [List.map_cons, List.mem_cons, not_or] at h
    rw [List.map_cons, applyAll_cons, ih h.2, applyClosure_update, assign_other _ _ _ _ h.1]

/-- In a batch of updates with pairwise distinct keys every update survives. -/
theorem applyAll_updates_mem (us : List (String × Int)) (k : String) (v : Int)
    (hd : (us.map Prod.fst).Nodup) (hmem : (k, v) ∈ us) (m : Inventory) :
    applyAll m (us.map fun kv => updateClosure kv.1 kv.2) k = some v := by
  induction us generalizing m with
  | nil => cases hmem
  | cons kv rest ih =>
    rw [List.map_cons, List.nodup_cons] at hd
    rw [List.map_cons, applyAll_cons, applyClosure_update]
    rcases List.mem_cons.mp hmem with heq | hrest
    · subst heq
      rw [applyAll_updates_other rest k hd.1]
      exact assign_same m k v
    · exact ih hd.2 hrest _

/-- Updates with pairwise distinct keys give the same map in whatever order they are
applied. -/
theorem applyAll_updates_perm (m : Inventory) (us order : List (String × Int))
    (hd : (us.map Prod.fst).Nodup) (hp : order.Perm us) :
    applyAll m (order.map fun kv => updateClosure kv.1 kv.2)
      = applyAll m (us.map fun kv => updateClosure kv.1 kv.2) := by
  have hd' : (order.map Prod.fst).Nodup := (hp.map Prod.fst).nodup_iff.mpr hd
  funext k
  by_cases hk : k ∈ us.map Prod.fst
  · obtain ⟨kv, hkv, rfl⟩ := List.mem_map.mp hk
    rw [applyAll_updates_mem us kv.1 kv.2 hd hkv,
      applyAll_updates_mem order kv.1 kv.2 hd' (hp.mem_iff.mpr hkv)]
  · have hk' : k ∉ order.map Prod.fst := fun hc => hk ((hp.map Prod.fst).mem_iff.mp hc)
    rw [applyAll_updates_other us k hk, applyAll_updates_other order k hk']

/-- After updates of one key only, the entry of that key is the value applied last. -/
theorem applyAll_same_key (k : String) (vs : List Int) (m : Inventory) :
    applyAll m (vs.map (updateClosure k)) k = (vs.getLast?.map some).getD (m k) := by
  induction vs generalizing m with
  | nil => rfl
  | cons v rest ih =>
    rw [List.map_cons, applyAll_cons, ih, applyClosure_update, assign_same]
    cases rest with
    | nil => rfl
    | cons w ws =>
      have hlast := List.getLast?_eq_getLast (w :: ws) (List.cons_ne_nil w ws)
      rw [List.getLast?_cons_cons, hlast]
      rfl

/-! ### The owner loop as a transition system -/

theorem select_terminated (pick : Ready) (o : Owner) (h : o.phase = .Terminated) :
    select pick o = none := by
  simp [select, h]

theorem step_done (e : Event) (o o' : Owner) (hstep : step e o = some o')
    (h : o.done = true) : o'.done = true := by
  cases e with
  | select pick =>
    cases hph : o.phase with
    | Terminated => simp [step, select, hph] at hstep
    | Running =>
      cases pick with
      | ctxDone =>
        simp only [step, select, hph, h, if_true, Option.some.injEq] at hstep
        rw [← hstep]
      | recv i =>
        cases hw : o.waiting[i]? with
        | none => simp [step, select, hph, hw] at hstep
        | some f =>
          simp only [step, select, hph, hw, Option.some.injEq] at hstep
          rw [← hstep]
          exact h
  | cancel =>
    simp only [step, Option.some.injEq] at hstep
    rw [← hstep]
  | send f =>
    simp only [step, Option.some.injEq] at hstep
    rw [← hstep]
    exact h

theorem step_terminated (e : Event) (o o' : Owner) (hstep : step e o = some o')
    (h : o.phase = .Terminated) :
    o'.phase = .Terminated ∧ o'.inventory = o.inventory ∧ o'.replies = o.replies ∧
      o.waiting <+: o'.waiting := by
  cases e with
  | select pick => simp [step, select_terminated pick o h] at hstep
  | cancel =>
    simp only [step, Option.some.injEq] at hstep
    rw [← hstep]
    exact ⟨h, rfl, rfl, List.prefix_refl _⟩
  | send f =>
    simp only [step, Option.some.injEq] at hstep
    rw [← hstep]
    exact ⟨h, rfl, rfl, List.prefix_append _ _⟩

theorem reach_done (o o' : Owner) (hreach : Reach o o') (h : o.done = true) :
    o'.done = true := by
  induction hreach with
  | refl => exact h
  | tail _ hstep ih =>
    obtain ⟨e, he⟩ := hstep
    exact step_done e _ _ he ih

theorem reach_terminated (o o' : Owner) (hreach : Reach o o') (h : o.phase = .Terminated) :
    o'.phase = .Terminated ∧ o'.inventory = o.inventory ∧ o'.replies = o.replies ∧
      o.waiting <+: o'.waiting := by
  induction hreach with
  | refl => exact ⟨h, rfl, rfl, List.prefix_refl _⟩
  | tail _ hstep ih =>
    obtain ⟨e, he⟩ := hstep
    have hs := step_terminated e _ _ he ih.1
    exact ⟨hs.1, hs.2.1.trans ih.2.1, hs.2.2.1.trans ih.2.2.1, ih.2.2.2.trans hs.2.2.2⟩

/-- With the signal fired, an owner in its loop can always take the cancellation case, and
doing so changes nothing but the phase: the map, the queue of waiting senders and the replies
stay as they are. -/
theorem select_ctxDone (o : Owner) (hdone : o.done = true) (hrun : o.phase = .Running) :
    select .ctxDone o = some { o with phase := .Terminated } := by
  simp [select, hdone, hrun]

/-- Taking the cancellation case changes nothing but the phase, whatever is waiting. -/
theorem select_ctxDone_eq (o o1 : Owner) (hsel : select .ctxDone o = some o1) :
    o1 = { o with phase := .Terminated } := by
  cases hph : o.phase with
  | Terminated => simp [select, hph] at hsel
  | Running =>
    cases hd : o.done with
    | false => simp [select, hph, hd] at hsel
    | true =>
      simp only [select, hph, hd, if_true, Option.some.injEq] at hsel
      exact hsel.symm

/-- With nobody waiting to send, the `select` can only take the cancellation case. -/
theorem select_nothing_waiting (pick : Ready) (o o1 : Owner) (hw : o.waiting = [])
    (hsel : select pick o = some o1) : o1 = { o with phase := .Terminated } := by
  cases pick with
  | ctxDone => exact select_ctxDone_eq o o1 hsel
  | recv i =>
    cases hph : o.phase with
    | Terminated => simp [select, hph] at hsel
    | Running => simp [select, hph, hw] at hsel

/-- C4, counterexample: a caller starts `Update("a", 1)` and then the context is cancelled,
both before the owner reaches its `select`.  With the signal fired and the closure waiting on
the channel, the `select` may take the receive case, and the owner's map, which had no entry
for `"a"`, then has `"a"` set to `1`. -/
theorem cancelled_owner_may_apply :
    Reach Owner.start cancelledWithPending ∧
    cancelledWithPending.done = true ∧ cancelledWithPending.phase = .Running ∧
    cancelledWithPending.inventory "a" = none ∧
    ∃ o', select (.recv 0) cancelledWithPending = some o' ∧ Reach cancelledWithPending o' ∧
      o'.phase = .Running ∧ o'.inventory "a" = some 1 :=
  ⟨Relation.ReflTransGen.tail
      (Relation.ReflTransGen.single
        (show Step Owner.start { Owner.start with waiting := [updateClosure "a" 1] } from
          ⟨.send (updateClosure "a" 1), rfl⟩))
      ⟨.cancel, rfl⟩,
    rfl, rfl, rfl, _, rfl, Relation.ReflTransGen.single ⟨.select (.recv 0), rfl⟩, rfl,
    by decide⟩

/-- C4, amended: at every state `o'` that follows the firing of the cancellation signal,
the signal is still fired; an owner still in its loop can take the cancellation case of its
`select`; taking it leaves the map, the waiting operations and the replies exactly as they
are, also when operations are waiting; with nothing waiting it is the only thing the `select`
can do; and from the moment the owner has taken it the owner is Terminated for good, its
`select` never runs again, the map at every later state equals the map at that moment, no
reply is ever sent and no waiting operation is ever taken off the queue. -/
theorem frozen_once_terminated (o o' : Owner) (hdone : o.done = true) (hreach : Reach o o') :
    o'.done = true ∧
    (o'.phase = .Running → select .ctxDone o' = some { o' with phase := .Terminated }) ∧
    (∀ o1, select .ctxDone o' = some o1 → o1 = { o' with phase := .Terminated }) ∧
    (∀ pick o1, o'.waiting = [] → select pick o' = some o1 →
      o1 = { o' with phase := .Terminated }) ∧
    (∀ o1 o2, select .ctxDone o' = some o1 → Reach o1 o2 →
      o2.phase = .Terminated ∧ o2.inventory = o'.inventory ∧ o2.replies = o'.replies ∧
        o'.waiting <+: o2.waiting ∧ ∀ pick, select pick o2 = none) := by
  have hdone' := reach_done o o' hreach hdone
  refine ⟨hdone', select_ctxDone o' hdone', select_ctxDone_eq o', ?_, ?_⟩
  · intro pick o1 hw hsel
    exact select_nothing_waiting pick o' o1 hw hsel
  · intro o1 o2 hsel hreach2
    have h1 := select_ctxDone_eq o' o1 hsel
    have ht := reach_terminated o1 o2 hreach2 (by rw [h1])
    rw [h1] at ht
    exact ⟨ht.1, ht.2.1, ht.2.2.1, ht.2.2.2, fun pick => select_terminated pick o2 ht.1⟩

theorem frozen_once_terminated_witness :
    (cancelledWithPending.done = true ∧ Reach cancelledWithPending cancelledWithPending ∧
      cancelledWithPending.phase = .Running ∧
      select .ctxDone cancelledWithPending = some terminatedWithPending ∧
      Reach terminatedWithPending terminatedAfterSend ∧
      terminatedAfterSend.phase = .Terminated ∧
      terminatedAfterSend.inventory = cancelledWithPending.inventory ∧
      terminatedAfterSend.replies = cancelledWithPending.replies ∧
      cancelledWithPending.waiting <+: terminatedAfterSend.waiting ∧
      ∀ pick, select pick terminatedAfterSend = none) ∧
    (cancelledIdle.done = true ∧ cancelledIdle.waiting = [] ∧
      select .ctxDone cancelledIdle = some { cancelledIdle with phase := .Terminated } ∧
      ∀ pick o1, select pick cancelledIdle = some o1 →
        o1 = { cancelledIdle with phase := .Terminated }) :=
  have hp := frozen_once_terminated cancelledWithPending cancelledWithPending rfl
    Relation.ReflTransGen.refl
  have hi := frozen_once_terminated cancelledIdle cancelledIdle rfl Relation.ReflTransGen.refl
  have hsend : Reach terminatedWithPending terminatedAfterSend :=
    Relation.ReflTransGen.single ⟨.send (readClosure "a"), rfl⟩
  have hfrozen := hp.2.2.2.2 terminatedWithPending terminatedAfterSend (hp.2.1 rfl) hsend
  ⟨⟨rfl, Relation.ReflTransGen.refl, rfl, hp.2.1 rfl, hsend, hfrozen.1, hfrozen.2.1,
      hfrozen.2.2.1, hfrozen.2.2.2.1, hfrozen.2.2.2.2⟩,
    ⟨rfl, rfl, hi.2.1 rfl, fun pick o1 hsel => hi.2.2.2.1 pick o1 rfl hsel⟩⟩

/-! ### Dequeuing waiting operations and answering `Read` -/

theorem perm_cons_eraseIdx {α : Type} (xs : List α) (i : Nat) (x : α) (h : xs[i]? = some x) :
    (x :: xs.eraseIdx i).Perm xs := by
  induction xs generalizing i with
  | nil => simp at h
  | cons y ys ih =>
    cases i with
    | zero =>
      simp only [List.getElem?_cons_zero, Option.some.injEq] at h
      subst h
      simp
    | succ j =>
      simp only [List.getElem?_cons_succ] at h
      simp only [List.eraseIdx_cons_succ]
      exact (List.Perm.swap y x _).trans (List.Perm.cons y (ih j h))

theorem eraseIdx_map {α β : Type} (g : α → β) (xs : List α) (i : Nat) :
    (xs.map g).eraseIdx i = (xs.eraseIdx i).map g := by
  induction xs generalizing i with
  | nil => rfl
  | cons y ys ih =>
    cases i with
    | zero => simp
    | succ j => simp [ih j]

theorem reach_of_runEvents (es : List Event) (o o' : Owner) (h : runEvents es o = some o') :
    Reach o o' := by
  induction es generalizing o with
  | nil =>
    simp only [runEvents, Option.some.injEq] at h
    subst h
    exact Relation.ReflTransGen.refl
  | cons e rest ih =>
    cases hs : step e o with
    | none => simp [runEvents, hs] at h
    | some o1 =>
      simp only [runEvents, hs, Option.some_bind] at h
      exact Relation.ReflTransGen.head ⟨e, hs⟩ (ih o1 h)

/-- Every order of the waiting closures is an order in which the loop can receive them. -/
theorem dequeue_in_order {α : Type} (g : α → Closure) (order xs : List α)
    (hp : order.Perm xs) (o : Owner) (hrun : o.phase = .Running) (hw : o.waiting = xs.map g) :
    ∃ picks o', picks.length = xs.length ∧ takeOrder picks xs = order ∧
      dequeue picks o = some o' := by
  induction order generalizing xs o with
  | nil =>
    have hx : xs = [] := hp.symm.eq_nil
    subst hx
    exact ⟨[], o, rfl, rfl, rfl⟩
  | cons a t ih =>
    have ha : a ∈ xs := hp.mem_iff.mp (List.mem_cons_self a t)
    obtain ⟨i, hi⟩ := List.mem_iff_getElem?.mp ha
    have ht : t.Perm (xs.eraseIdx i) :=
      (hp.trans (perm_cons_eraseIdx xs i a hi).symm).cons_inv
    have hf : o.waiting[i]? = some (g a) := by rw [hw]; simp [hi]
    obtain ⟨picks, o', hlen, htake, hdq⟩ :=
      ih (xs.eraseIdx i) ht
        { o with
          inventory := (g a o.inventory).1
          waiting := o.waiting.eraseIdx i
          replies := o.replies ++ (g a o.inventory).2.toList }
        hrun (by simp only [hw, eraseIdx_map])
    refine ⟨i :: picks, o', ?_, ?_, ?_⟩
    · have h1 := hp.length_eq
      have h2 := ht.length_eq
      simp only [List.length_cons] at h1 ⊢
      omega
    · simp [takeOrder, hi, htake]
    · simp only [dequeue, select, hrun, hf, Option.some_bind]
      rw [← hrun]
      exact hdq

/-- C6, counterexample: `Update("k0", 0)` and `Update("k1", 1)` are sent and the owner
dequeues and applies both, then the context is cancelled and the owner returns.  The map has `"k1"` set to `1`, but a `Read("k1")`
called now never returns: at every later state its closure is still waiting, no reply has been
sent and the owner's `select` cannot run. -/
theorem read_after_distinct_updates_unanswered :
    runEvents distinctThenCancel Owner.start = some distinctUnanswered ∧
    received distinctThenCancel Owner.start
      = ([("k1", 1), ("k0", 0)] : List (String × Int)).map
          (fun kv => updateClosure kv.1 kv.2) ∧
    Reach Owner.start distinctUnanswered ∧
    distinctUnanswered.inventory "k0" = some 0 ∧ distinctUnanswered.inventory "k1" = some 1 ∧
    ∀ o', Reach distinctUnanswered o' →
      o'.replies = [] ∧ [readClosure "k1"] <+: o'.waiting ∧ ∀ pick, select pick o' = none :=
  ⟨rfl, rfl, reach_of_runEvents distinctThenCancel _ _ rfl, by decide, by decide, fun o' h =>
    have ht := reach_terminated distinctUnanswered o' h rfl
    ⟨ht.2.2.1, ht.2.2.2, fun pick => select_terminated pick o' ht.1⟩⟩

/-- C7, counterexample: `Update("k", 5)` and `Update("k", 9)` are sent and the owner dequeues
and applies both, then the context is cancelled and the owner returns.  The map has `"k"` set to `9`, but a `Read("k")`
called now never returns: at every later state its closure is still waiting, no reply has been
sent and the owner's `select` cannot run. -/
theorem read_after_same_key_updates_unanswered :
    runEvents sameKeyThenCancel Owner.start = some sameKeyUnanswered ∧
    received sameKeyThenCancel Owner.start = ([5, 9] : List Int).map (updateClosure "k") ∧
    Reach Owner.start sameKeyUnanswered ∧
    sameKeyUnanswered.inventory "k" = some 9 ∧
    ∀ o', Reach sameKeyUnanswered o' →
      o'.replies = [] ∧ [readClosure "k"] <+: o'.waiting ∧ ∀ pick, select pick o' = none :=
  ⟨rfl, rfl, reach_of_runEvents sameKeyThenCancel _ _ rfl, by decide, fun o' h =>
    have ht := reach_terminated sameKeyUnanswered o' h rfl
    ⟨ht.2.2.1, ht.2.2.2, fun pick => select_terminated pick o' ht.1⟩⟩

/-! ### Any run of the system -/

theorem step_received (e : Event) (o o1 : Owner) (hstep : step e o = some o1) :
    o1.inventory = applyAll o.inventory (e.received o) := by
  cases e with
  | select pick =>
    cases pick with
    | ctxDone =>
      rw [select_ctxDone_eq o o1 hstep]
      rfl
    | recv i =>
      cases hph : o.phase with
      | Terminated => simp [step, select, hph] at hstep
      | Running =>
        cases hf : o.waiting[i]? with
        | none => simp [step, select, hph, hf] at hstep
        | some f =>
          simp only [step, select, hph, hf, Option.some.injEq] at hstep
          rw [← hstep]
          simp [Event.received, hf, applyAll, applyClosure]
  | cancel =>
    simp only [step, Option.some.injEq] at hstep
    rw [← hstep]
    rfl
  | send f =>
    simp only [step, Option.some.injEq] at hstep
    rw [← hstep]
    rfl

/-- The map at the end of a run is the map at its start with the closures the owner received
applied in the order of reception. -/
theorem runEvents_inventory (es : List Event) (o o' : Owner)
    (hrun : runEvents es o = some o') :
    o'.inventory = applyAll o.inventory (received es o) := by
  induction es generalizing o with
  | nil =>
    simp only [runEvents, Option.some.injEq] at hrun
    subst hrun
    rfl
  | cons e rest ih =>
    cases hs : step e o with
    | none => simp [runEvents, hs] at hrun
    | some o1 =>
      simp only [runEvents, hs, Option.some_bind] at hrun
      simp only [received, hs]
      rw [applyAll_append, ← step_received e o o1 hs]
      exact ih o1 hrun

/-- Receiving at the positions `picks` is a run of the system. -/
theorem dequeue_eq_runEvents (picks : List Nat) (o : Owner) :
    dequeue picks o = runEvents (picks.map fun i => .select (.recv i)) o := by
  induction picks generalizing o with
  | nil => rfl
  | cons i rest ih =>
    simp only [dequeue, List.map_cons, runEvents, step]
    cases select (.recv i) o with
    | none => rfl
    | some o1 => simp [ih o1]

theorem received_dequeue {α : Type} (g : α → Closure) (picks : List Nat) (xs : List α)
    (o o' : Owner) (hrun : o.phase = .Running) (hw : o.waiting = xs.map g)
    (hdq : dequeue picks o = some o') :
    received (picks.map fun i => .select (.recv i)) o = (takeOrder picks xs).map g := by
  induction picks generalizing o xs with
  | nil => rfl
  | cons i rest ih =>
    cases hx : xs[i]? with
    | none =>
      have hn : o.waiting[i]? = none := by rw [hw]; simp [hx]
      simp [dequeue, select, hrun, hn] at hdq
    | some x =>
      have hf : o.waiting[i]? = some (g x) := by rw [hw]; simp [hx]
      simp only [dequeue, select, hrun, hf, Option.some_bind] at hdq
      have hrec := ih (xs.eraseIdx i) _ rfl (by simp only [hw, eraseIdx_map]) hdq
      simp only [List.map_cons, received, step, select, hrun, hf, Event.received,
        Option.toList, takeOrder, hx, List.singleton_append, List.cons.injEq, true_and]
      exact hrec

/-- Every order of the waiting operations is the order of reception of some run. -/
theorem every_order_received {α : Type} (g : α → Closure) (order xs : List α)
    (hp : order.Perm xs) (o : Owner) (hrun : o.phase = .Running) (hw : o.waiting = xs.map g) :
    ∃ es o', runEvents es o = some o' ∧ received es o = order.map g := by
  obtain ⟨picks, o', _, htake, hdq⟩ := dequeue_in_order g order xs hp o hrun hw
  refine ⟨picks.map fun i => .select (.recv i), o', ?_, ?_⟩
  · rw [← dequeue_eq_runEvents]
    exact hdq
  · rw [received_dequeue g picks xs o o' hrun hw hdq, htake]

/-- The owner's `select` receives the closure of a waiting `Read(k)`: the reply is the
two-valued index of the map, and neither the map nor the other waiting senders change. -/
theorem select_recv_read (o : Owner) (i : Nat) (k : String) (hrun : o.phase = .Running)
    (hi : o.waiting[i]? = some (readClosure k)) :
    select (.recv i) o
      = some { o with
          waiting := o.waiting.eraseIdx i
          replies := o.replies ++ [o.inventory.index k] } := by
  simp [select, hrun, hi, readClosure]

/-- While the context is not cancelled and the closure of `Read(k)` is the only one waiting,
every `select` of the owner receives it. -/
theorem select_only_read (o o2 : Owner) (pick : Ready) (k : String) (hd : o.done = false)
    (hw : o.waiting = [readClosure k]) (hsel : select pick o = some o2) :
    o2 = { o with waiting := [], replies := o.replies ++ [o.inventory.index k] } := by
  cases hph : o.phase with
  | Terminated => simp [select, hph] at hsel
  | Running =>
    cases pick with
    | ctxDone => simp [select, hph, hd] at hsel
    | recv i =>
      cases i with
      | zero =>
        have h0 := select_recv_read o 0 k hph (by rw [hw]; rfl)
        rw [hsel, hw] at h0
        simpa [hph] using h0
      | succ j => simp [select, hph, hw] at hsel

/-- C6, amended: take any run of the system, from a state with any map, in which the
operations the owner dequeues are `N` updates `Update(k_i, v_i)` with pairwise distinct keys,
in any order.  The resulting map is the same for every order, and a `Read(k_i)` whose caller
is waiting then returns `(v_i, true)` when the owner dequeues its closure: an owner in its loop
can do so, doing so sends that reply and leaves the map alone, and while the context is not
cancelled and nobody else is waiting the owner's `select` can do nothing else. -/
theorem no_lost_writes (o o' : Owner) (es : List Event) (us order : List (String × Int))
    (hd : (us.map Prod.fst).Nodup) (hp : order.Perm us)
    (hrun : runEvents es o = some o')
    (hrecv : received es o = order.map fun kv => updateClosure kv.1 kv.2) :
    o'.inventory = applyAll o.inventory (us.map fun kv => updateClosure kv.1 kv.2) ∧
    ∀ kv ∈ us,
      o'.inventory.index kv.1 = (kv.2, true) ∧
      (∀ i, o'.phase = .Running → o'.waiting[i]? = some (readClosure kv.1) →
        select (.recv i) o'
          = some { o' with
              waiting := o'.waiting.eraseIdx i
              replies := o'.replies ++ [(kv.2, true)] }) ∧
      (∀ pick o2, o'.done = false → o'.waiting = [readClosure kv.1] →
        select pick o' = some o2 →
        o2 = { o' with waiting := [], replies := o'.replies ++ [(kv.2, true)] }) := by
  have hinv : o'.inventory
      = applyAll o.inventory (us.map fun kv => updateClosure kv.1 kv.2) := by
    rw [runEvents_inventory es o o' hrun, hrecv]
    exact applyAll_updates_perm o.inventory us order hd hp
  refine ⟨hinv, ?_⟩
  intro kv hkv
  have hidx : o'.inventory.index kv.1 = (kv.2, true) :=
    index_of_some _ kv.1 kv.2 (by rw [hinv]; exact applyAll_updates_mem us kv.1 kv.2 hd hkv _)
  refine ⟨hidx, ?_, ?_⟩
  · intro i hph hi
    rw [← hidx]
    exact select_recv_read o' i kv.1 hph hi
  · intro pick o2 hdone hw hsel
    rw [← hidx]
    exact select_only_read o' o2 pick kv.1 hdone hw hsel

theorem no_lost_writes_witness :
    (([("k0", 0), ("k1", 1), ("k2", 2)] : List (String × Int)).map Prod.fst).Nodup ∧
    ([("k2", 2), ("k0", 0), ("k1", 1)] : List (String × Int)).Perm
      [("k0", 0), ("k1", 1), ("k2", 2)] ∧
    runEvents distinctRun Owner.start = some distinctRunEnd ∧
    received distinctRun Owner.start
      = ([("k2", 2), ("k0", 0), ("k1", 1)] : List (String × Int)).map
          (fun kv => updateClosure kv.1 kv.2) ∧
    distinctRunEnd.phase = .Running ∧ distinctRunEnd.done = false ∧
    distinctRunEnd.waiting = [readClosure "k2"] ∧
    distinctRunEnd.inventory
      = applyAll Owner.start.inventory
          (([("k0", 0), ("k1", 1), ("k2", 2)] : List (String × Int)).map
            fun kv => updateClosure kv.1 kv.2) ∧
    select (.recv 0) distinctRunEnd
      = some { distinctRunEnd with
          waiting := distinctRunEnd.waiting.eraseIdx 0
          replies := distinctRunEnd.replies ++ [(2, true)] } ∧
    ∀ pick o2, select pick distinctRunEnd = some o2 →
      o2 = { distinctRunEnd with
        waiting := [], replies := distinctRunEnd.replies ++ [(2, true)] } :=
  have h := no_lost_writes Owner.start distinctRunEnd distinctRun
    [("k0", 0), ("k1", 1), ("k2", 2)] [("k2", 2), ("k0", 0), ("k1", 1)]
    (by decide) (by decide) rfl rfl
  have h2 := h.2 ("k2", 2) (by decide)
  ⟨by decide, by decide, rfl, rfl, rfl, rfl, rfl, h.1, h2.2.1 0 rfl rfl,
    fun pick o2 hsel => h2.2.2 pick o2 rfl rfl hsel⟩

/-- C7, amended: take any run of the system, from a state with any map, in which the
operations the owner dequeues are `n ≥ 1` updates `Update(k, v_1)`, ..., `Update(k, v_n)` of
one key, in any order.  The entry of `k` is then the value `v` of the update applied last,
which is one of the attempted values, and a `Read(k)` whose caller is waiting then returns
`(v, true)` when the owner dequeues its closure: an owner in its loop can do so, doing so sends
that reply and leaves the map alone, and while the context is not cancelled and nobody else is
waiting the owner's `select` can do nothing else. -/
theorem same_key_last_wins (o o' : Owner) (es : List Event) (k : String)
    (vs order : List Int) (hne : vs ≠ []) (hp : order.Perm vs)
    (hrun : runEvents es o = some o')
    (hrecv : received es o = order.map (updateClosure k)) :
    ∃ v, order.getLast? = some v ∧ v ∈ vs ∧ o'.inventory k = some v ∧
      o'.inventory.index k = (v, true) ∧
      (∀ i, o'.phase = .Running → o'.waiting[i]? = some (readClosure k) →
        select (.recv i) o'
          = some { o' with
              waiting := o'.waiting.eraseIdx i
              replies := o'.replies ++ [(v, true)] }) ∧
      (∀ pick o2, o'.done = false → o'.waiting = [readClosure k] →
        select pick o' = some o2 →
        o2 = { o' with waiting := [], replies := o'.replies ++ [(v, true)] }) := by
  have hne' : order ≠ [] := fun h => hne (by rw [h] at hp; exact hp.symm.eq_nil)
  have hlast := List.getLast?_eq_getLast _ hne'
  have hk : o'.inventory k = some (order.getLast hne') := by
    rw [runEvents_inventory es o o' hrun, hrecv, applyAll_same_key, hlast]
    rfl
  have hidx := index_of_some _ k _ hk
  refine ⟨order.getLast hne', hlast, hp.mem_iff.mp (List.getLast_mem hne'), hk, hidx, ?_, ?_⟩
  · intro i hph hi
    rw [← hidx]
    exact select_recv_read o' i k hph hi
  · intro pick o2 hdone hw hsel
    rw [← hidx]
    exact select_only_read o' o2 pick k hdone hw hsel

theorem same_key_last_wins_witness :
    ([5, 9, 7] : List Int) ≠ [] ∧ ([5, 7, 9] : List Int).Perm [5, 9, 7] ∧
    runEvents sameKeyRun Owner.start = some sameKeyRunEnd ∧
    received sameKeyRun Owner.start = ([5, 7, 9] : List Int).map (updateClosure "k") ∧
    sameKeyRunEnd.phase = .Running ∧ sameKeyRunEnd.done = false ∧
    sameKeyRunEnd.waiting = [readClosure "k"] ∧
    sameKeyRunEnd.inventory "k" = some 9 ∧
    select (.recv 0) sameKeyRunEnd
      = some { sameKeyRunEnd with
          waiting := sameKeyRunEnd.waiting.eraseIdx 0
          replies := sameKeyRunEnd.replies ++ [(9, true)] } ∧
    ∃ v, ([5, 7, 9] : List Int).getLast? = some v ∧ v ∈ ([5, 9, 7] : List Int) ∧
      sameKeyRunEnd.inventory "k" = some v ∧ sameKeyRunEnd.inventory.index "k" = (v, true) ∧
      (∀ i, sameKeyRunEnd.phase = .Running →
        sameKeyRunEnd.waiting[i]? = some (readClosure "k") →
        select (.recv i) sameKeyRunEnd
          = some { sameKeyRunEnd with
              waiting := sameKeyRunEnd.waiting.eraseIdx i
              replies := sameKeyRunEnd.replies ++ [(v, true)] }) ∧
      (∀ pick o2, sameKeyRunEnd.done = false → sameKeyRunEnd.waiting = [readClosure "k"] →
        select pick sameKeyRunEnd = some o2 →
        o2 = { sameKeyRunEnd with
          waiting := [], replies := sameKeyRunEnd.replies ++ [(v, true)] }) :=
  ⟨by decide, by decide, rfl, rfl, rfl, rfl, rfl, by decide, rfl,
    same_key_last_wins Owner.start sameKeyRunEnd sameKeyRun "k" [5, 9, 7] [5, 7, 9]
      (by decide) (by decide) rfl rfl⟩

/-- Sending a closure and receiving it next applies it: every sequence of closures can be
dequeued by the loop in the order given, and the map then is `applyAll` of that sequence. -/
theorem reach_applyAll (fs : List Closure) (o : Owner) (hrun : o.phase = .Running)
    (hw : o.waiting = []) :
    ∃ o', Reach o o' ∧ o'.phase = .Running ∧ o'.waiting = [] ∧ o'.done = o.done ∧
      o'.inventory = applyAll o.inventory fs := by
  induction fs generalizing o with
  | nil => exact ⟨o, Relation.ReflTransGen.refl, hrun, hw, rfl, rfl⟩
  | cons f rest ih =>
    let o1 : Owner := { o with waiting := o.waiting ++ [f] }
    let o2 : Owner :=
      { o with inventory := (f o.inventory).1, replies := o.replies ++ (f o.inventory).2.toList }
    have h1 : Step o o1 := ⟨.send f, rfl⟩
    have h2 : Step o1 o2 := by
      refine ⟨.select (.recv 0), ?_⟩
      simp [step, select, o1, o2, hrun, hw]
    obtain ⟨o', hreach, hp, hw', hd, hinv⟩ := ih o2 hrun hw
    exact ⟨o', (Relation.ReflTransGen.single h1).trans
      ((Relation.ReflTransGen.single h2).trans hreach), hp, hw', hd, hinv⟩

/-- On the channel-owned store, reading a key that no applied operation has written returns
`(0, false)`. -/
theorem read_never_written (ops : List Op) (k : String)
    (h : ∀ op ∈ ops, op.written ≠ some k) :
    Read (inventoryManager ops) k = some (0, false) := by
  rw [Read_eq, index_of_none]
  exact applyAll_other ops k h Inventory.empty

/-- On the channel-owned store, a key has an entry exactly when an update of that key has been
applied. -/
theorem present_iff_updated (ops : List Op) (k : String) :
    (inventoryManager ops k).isSome = true ↔ ∃ v, Op.update k v ∈ ops := by
  unfold inventoryManager
  induction ops using List.reverseRecOn with
  | nil => simp [applyAll, Inventory.empty]
  | append_singleton rest op ih =>
    rw [List.map_append, applyAll_append, List.map_singleton, applyAll_cons, applyAll_nil]
    cases op with
    | read name =>
      simp only [Op.closure, applyClosure_read, ih, List.mem_append, List.mem_singleton,
        reduceCtorEq, or_false]
    | update name val =>
      by_cases hk : k = name
      · subst hk
        simp [Op.closure, applyClosure_update, assign_same]
      · simp only [Op.closure, applyClosure_update, assign_other _ _ _ _ hk, ih,
          List.mem_append, List.mem_singleton, Op.update.injEq, hk, false_and, or_false]

end Channels

/-! ## Properties of the lock-guarded store -/

namespace Mutexes

/-- On an unlocked mutex `Read` returns the two-valued index of the map, takes the mutex for
reading once, gives it back once, and leaves mutex and map as they were. -/
theorem Read_free (inventory : Option Inventory) (name : String) :
    (Read { mu := RWMutex.free, inventory := inventory } name).exit
        = .returned (index inventory name) ∧
      (Read { mu := RWMutex.free, inventory := inventory } name).trace
        = [.RLock, .index, .RUnlock] ∧
      (Read { mu := RWMutex.free, inventory := inventory } name).mim.mu = RWMutex.free ∧
      (Read { mu := RWMutex.free, inventory := inventory } name).mim.inventory = inventory :=
  ⟨rfl, rfl, rfl, rfl⟩

/-- The method `Read` never changes the map, however it ends. -/
theorem Read_inventory (mim : InventoryManager) (name : String) :
    (Read mim name).mim.inventory = mim.inventory := by
  unfold Read
  cases h1 : mim.mu.RLock with
  | none => rfl
  | some mu1 =>
    simp only
    cases h2 : mu1.RUnlock with
    | none => rfl
    | some mu2 => rfl

/-- The method `Read` raises no panic and cannot hit the fatal error of `RUnlock`. -/
theorem Read_no_panic (mim : InventoryManager) (name : String) :
    Action.panic ∉ (Read mim name).trace ∧ (Read mim name).exit ≠ .panicked ∧
      (Read mim name).exit ≠ .fatal := by
  unfold Read
  by_cases hw : mim.mu.writer = false
  · simp [RWMutex.RLock, RWMutex.RUnlock, hw]
  · simp [RWMutex.RLock, hw]

/-- On a non-nil map `Update` raises no panic. -/
theorem Update_no_panic (mu : RWMutex) (m : Inventory) (name : String) (val : Int) :
    Action.panic ∉ (Update { mu := mu, inventory := some m } name val).trace ∧
      (Update { mu := mu, inventory := some m } name val).exit ≠ .panicked := by
  unfold Update
  by_cases h : mu.writer = false ∧ mu.readers = 0
  · simp [RWMutex.Lock, h]
  · simp [RWMutex.Lock, h]

/-- C2, the code at the failing input: on an unlocked store, whatever the map, `Update(k, v)`
does not return but blocks, and a following `Read(k)` blocks as well. -/
theorem Update_blocks (inventory : Option Inventory) (k : String) (v : Int) :
    (Update { mu := RWMutex.free, inventory := inventory } k v).exit = .blocked ∧
      (Read (Update { mu := RWMutex.free, inventory := inventory } k v).mim k).exit
        = .blocked := by
  cases inventory with
  | none => exact ⟨rfl, rfl⟩
  | some m => exact ⟨rfl, rfl⟩

/-- C3, the code at the failing input: started on an unlocked store with a non-nil map,
`Update` takes the mutex for writing, assigns, never gives the mutex back, and stops in its
deferred second `Lock` with the mutex still held for writing. -/
theorem Update_keeps_lock (m : Inventory) (k : String) (v : Int) :
    (Update { mu := RWMutex.free, inventory := some m } k v).trace = [.Lock, .assign] ∧
      (Update { mu := RWMutex.free, inventory := some m } k v).mim.mu
        = { writer := true, readers := 0 } ∧
      (Update { mu := RWMutex.free, inventory := some m } k v).mim.mu ≠ RWMutex.free ∧
      (Update { mu := RWMutex.free, inventory := some m } k v).exit = .blocked :=
  ⟨rfl, rfl, by show RWMutex.mk true 0 ≠ RWMutex.free; decide, rfl⟩

/-- C5, the code at the failing input: on a store created with an empty map, after a single
`Update(k, v)` a `Read` of any key, written or not, blocks instead of returning. -/
theorem Read_blocks_after_update (k : String) (v : Int) (other : String) :
    (Read (runCalls InventoryManager.fresh [.update k v]) other).exit = .blocked :=
  rfl

/-- C8, the code at the failing input: on the zero value of `InventoryManager`, whose map is
nil, `Update` takes the mutex, panics in the assignment and then blocks in the deferred
`Lock`. -/
theorem Update_zero_panics (k : String) (v : Int) :
    (Update InventoryManager.zero k v).trace = [.Lock, .panic] ∧
      Action.panic ∈ (Update InventoryManager.zero k v).trace ∧
      (Update InventoryManager.zero k v).exit = .blocked :=
  ⟨rfl, by show Action.panic ∈ [Action.Lock, Action.panic]; decide, rfl⟩

/-- C9, the code at the failing input: on a store created with an empty map, after
`Update("a", 1)` and `Update("b", 2)` the key `"b"` has no entry, because the second call
blocks before its assignment, and `Read("a")` blocks instead of reporting the entry of
`"a"`. -/
theorem second_update_not_applied :
    index (runCalls InventoryManager.fresh [.update "a" 1, .update "b" 2]).inventory "b"
        = (0, false) ∧
      index (runCalls InventoryManager.fresh [.update "a" 1, .update "b" 2]).inventory "a"
        = (1, true) ∧
      (Read (runCalls InventoryManager.fresh [.update "a" 1, .update "b" 2]) "a").exit
        = .blocked :=
  ⟨by decide, by decide, rfl⟩

/-! ### Concurrent callers: the mutex keeps writers alone -/

theorem Lock_some (mu mu' : RWMutex) (h : mu.Lock = some mu') :
    mu.writer = false ∧ mu.readers = 0 ∧ mu'.writer = true ∧ mu'.readers = 0 := by
  unfold RWMutex.Lock at h
  split at h
  · next hfree =>
    simp only [Option.some.injEq] at h
    subst h
    exact ⟨hfree.1, hfree.2, rfl, hfree.2⟩
  · simp at h

theorem RLock_some (mu mu' : RWMutex) (h : mu.RLock = some mu') :
    mu.writer = false ∧ mu'.writer = false ∧ mu'.readers = mu.readers + 1 := by
  unfold RWMutex.RLock at h
  split at h
  · next hfree =>
    simp only [Option.some.injEq] at h
    subst h
    exact ⟨hfree, hfree, rfl⟩
  · simp at h

theorem RUnlock_some (mu mu' : RWMutex) (h : mu.RUnlock = some mu') :
    0 < mu.readers ∧ mu'.writer = mu.writer ∧ mu'.readers + 1 = mu.readers := by
  unfold RWMutex.RUnlock at h
  split at h
  · next hpos =>
    simp only [Option.some.injEq] at h
    subst h
    exact ⟨hpos, rfl, Nat.sub_add_cancel hpos⟩
  · simp at h

theorem RUnlock_none (mu : RWMutex) (h : mu.RUnlock = none) : mu.readers = 0 := by
  unfold RWMutex.RUnlock at h
  split at h
  · simp at h
  · omega

theorem countP_set_add {α : Type} (p : α → Bool) (l : List α) (i : Nat) (c c' : α)
    (h : l[i]? = some c) :
    (l.set i c').countP p + (p c).toNat = l.countP p + (p c').toNat := by
  induction i generalizing l with
  | zero =>
    match l, h with
    | x :: xs, h =>
      obtain rfl : x = c := by simpa using h
      simp only [List.set_cons_zero, List.countP_cons]
      cases p x <;> cases p c' <;> simp
  | succ j ih =>
    match l, h with
    | x :: xs, h =>
      have hj := ih xs (by simpa using h)
      simp only [List.set_cons_succ, List.countP_cons]
      omega

theorem countP_pos_of_getElem? {α : Type} (p : α → Bool) (l : List α) (i : Nat) (c : α)
    (h : l[i]? = some c) (hp : p c = true) : 0 < l.countP p :=
  List.countP_pos_iff.mpr ⟨c, List.mem_iff_getElem?.mpr ⟨i, h⟩, hp⟩

/-- Replacing one caller and the mutex keeps the accounts, when the change of the caller's
region matches the change of the mutex. -/
theorem accounted_set (s : System) (i : Nat) (c c' : Caller) (mu' : RWMutex)
    (inventory' : Option Inventory) (hc : s.callers[i]? = some c) (hacc : Accounted s)
    (hW : c'.holdsWrite.toNat + s.mu.writer.toNat = c.holdsWrite.toNat + mu'.writer.toNat)
    (hR : c'.holdsRead.toNat + s.mu.readers = c.holdsRead.toNat + mu'.readers)
    (hex : mu'.writer = true → mu'.readers = 0) :
    Accounted { mu := mu', inventory := inventory', callers := s.callers.set i c' } := by
  have hw := countP_set_add Caller.holdsWrite s.callers i c c' hc
  have hr := countP_set_add Caller.holdsRead s.callers i c c' hc
  have h1 := hacc.writers
  have h2 := hacc.readers
  have hb : ∀ b : Bool, (if b = true then 1 else 0) = b.toNat := by decide
  rw [hb] at h1
  refine ⟨?_, ?_, hex⟩
  · show (s.callers.set i c').countP Caller.holdsWrite = if mu'.writer = true then 1 else 0
    rw [hb]
    omega
  · show (s.callers.set i c').countP Caller.holdsRead = mu'.readers
    omega

theorem accounted_init (inventory : Option Inventory) (calls : List Call) :
    Accounted (System.init inventory calls) := by
  have hW : ∀ cs : List Call,
      (cs.map fun call => ({ call := call, pos := .start, result := none } : Caller)).countP
        Caller.holdsWrite = 0 := by
    intro cs
    rw [List.countP_eq_zero]
    intro c hc
    obtain ⟨call, _, rfl⟩ := List.mem_map.mp hc
    cases call <;> simp [Caller.holdsWrite]
  have hR : ∀ cs : List Call,
      (cs.map fun call => ({ call := call, pos := .start, result := none } : Caller)).countP
        Caller.holdsRead = 0 := by
    intro cs
    rw [List.countP_eq_zero]
    intro c hc
    obtain ⟨call, _, rfl⟩ := List.mem_map.mp hc
    cases call <;> simp [Caller.holdsRead]
  exact ⟨by simp [System.init, RWMutex.free, hW], by simp [System.init, RWMutex.free, hR],
    fun _ => rfl⟩

/-- Every move keeps the accounts. -/
theorem accounted_move (i : Nat) (s s' : System) (hmove : move i s = some s')
    (hacc : Accounted s) : Accounted s' := by
  unfold move at hmove
  cases hc : s.callers[i]? with
  | none => simp [hc] at hmove
  | some c =>
    obtain ⟨call, pos, result⟩ := c
    simp only [hc] at hmove
    have hb : ∀ b : Bool, (if b = true then 1 else 0) = b.toNat := by decide
    have hwr := hacc.writers
    have hrd := hacc.readers
    rw [hb] at hwr
    cases call with
    | update name val =>
      cases pos with
      | start =>
        cases hL : s.mu.Lock with
        | none => simp [hL] at hmove
        | some mu =>
          simp only [hL, Option.some.injEq] at hmove
          subst hmove
          obtain ⟨h1, h2, h3, h4⟩ := Lock_some _ _ hL
          exact accounted_set s i _ _ mu s.inventory hc hacc
            (by simp [Caller.holdsWrite, h1, h3]) (by simp [Caller.holdsRead, h2, h4])
            (fun _ => h4)
      | access =>
        cases hinv : s.inventory with
        | none =>
          simp only [hinv, Option.some.injEq] at hmove
          subst hmove
          exact accounted_set s i _ _ s.mu none hc hacc
            (by simp [Caller.holdsWrite]) (by simp [Caller.holdsRead]) hacc.exclusive
        | some m =>
          simp only [hinv, Option.some.injEq] at hmove
          subst hmove
          exact accounted_set s i _ _ s.mu _ hc hacc
            (by simp [Caller.holdsWrite]) (by simp [Caller.holdsRead]) hacc.exclusive
      | deferred panicking =>
        cases hL : s.mu.Lock with
        | none => simp [hL] at hmove
        | some mu =>
          exfalso
          obtain ⟨h1, _, _, _⟩ := Lock_some _ _ hL
          have hpos := countP_pos_of_getElem? Caller.holdsWrite s.callers i _ hc
            (by simp [Caller.holdsWrite])
          rw [h1] at hwr
          simp only [Bool.toNat_false] at hwr
          omega
      | returned => simp at hmove
      | panicked => simp at hmove
      | fatal => simp at hmove
    | read name =>
      cases pos with
      | start =>
        cases hL : s.mu.RLock with
        | none => simp [hL] at hmove
        | some mu =>
          simp only [hL, Option.some.injEq] at hmove
          subst hmove
          obtain ⟨h1, h2, h3⟩ := RLock_some _ _ hL
          exact accounted_set s i _ _ mu s.inventory hc hacc
            (by simp [Caller.holdsWrite, h1, h2]) (by simp [Caller.holdsRead, h3]; omega)
            (fun hw => by rw [h2] at hw; cases hw)
      | access =>
        simp only [Option.some.injEq] at hmove
        subst hmove
        exact accounted_set s i _ _ s.mu s.inventory hc hacc
          (by simp [Caller.holdsWrite]) (by simp [Caller.holdsRead]) hacc.exclusive
      | deferred panicking =>
        have hpos := countP_pos_of_getElem? Caller.holdsRead s.callers i _ hc
          (by simp [Caller.holdsRead])
        cases hU : s.mu.RUnlock with
        | none =>
          exfalso
          have := RUnlock_none _ hU
          omega
        | some mu =>
          simp only [hU, Option.some.injEq] at hmove
          subst hmove
          obtain ⟨h1, h2, h3⟩ := RUnlock_some _ _ hU
          exact accounted_set s i _ _ mu s.inventory hc hacc
            (by simp [Caller.holdsWrite, h2]) (by simp [Caller.holdsRead]; omega)
            (fun hw => by
              have := hacc.exclusive (by rw [← h2]; exact hw)
              omega)
      | returned => simp at hmove
      | panicked => simp at hmove
      | fatal => simp at hmove

theorem accounted_reaches (s s' : System) (hreach : Reaches s s') (hacc : Accounted s) :
    Accounted s' := by
  induction hreach with
  | refl => exact hacc
  | tail _ hmove ih =>
    obtain ⟨i, hi⟩ := hmove
    exact accounted_move i _ _ hi ih

theorem reaches_of_runMoves (order : List Nat) (s s' : System)
    (h : runMoves order s = some s') : Reaches s s' := by
  induction order generalizing s with
  | nil =>
    simp only [runMoves, Option.some.injEq] at h
    subst h
    exact Relation.ReflTransGen.refl
  | cons i rest ih =>
    cases hs : move i s with
    | none => simp [runMoves, hs] at h
    | some s1 =>
      simp only [runMoves, hs, Option.some_bind] at h
      exact Relation.ReflTransGen.head ⟨i, hs⟩ (ih s1 h)

theorem mutating_le_holdsWrite (l : List Caller) :
    l.countP Caller.mutating ≤ l.countP Caller.holdsWrite := by
  apply List.countP_mono_left
  intro c _ hc
  obtain ⟨call, pos, result⟩ := c
  cases call <;> cases pos <;> simp_all [Caller.mutating, Caller.holdsWrite]

theorem reading_le_holdsRead (l : List Caller) :
    l.countP Caller.reading ≤ l.countP Caller.holdsRead := by
  apply List.countP_mono_left
  intro c _ hc
  obtain ⟨call, pos, result⟩ := c
  cases call <;> cases pos <;> simp_all [Caller.reading, Caller.holdsRead]

/-- In a state whose mutex accounts for its callers, at most one caller is assigning to the
map, no caller is looking up while one assigns, and every caller that touches the map holds
the mutex in the matching mode. -/
theorem exclusion_of_accounted (s : System) (hacc : Accounted s) :
    s.callers.countP Caller.mutating ≤ 1 ∧
      (0 < s.callers.countP Caller.mutating → s.callers.countP Caller.reading = 0) ∧
      (∀ c ∈ s.callers, c.mutating = true → s.mu.writer = true ∧ s.mu.readers = 0) ∧
      (∀ c ∈ s.callers, c.reading = true → s.mu.writer = false ∧ 0 < s.mu.readers) := by
  have hw := hacc.writers
  have hr := hacc.readers
  have hmw := mutating_le_holdsWrite s.callers
  have hrr := reading_le_holdsRead s.callers
  have hwriter : 0 < s.callers.countP Caller.mutating → s.mu.writer = true := by
    intro hpos
    by_contra hne
    rw [if_neg hne] at hw
    omega
  refine ⟨?_, ?_, ?_, ?_⟩
  · split at hw <;> omega
  · intro hpos
    have := hacc.exclusive (hwriter hpos)
    omega
  · intro c hc hm
    have hpos : 0 < s.callers.countP Caller.mutating := List.countP_pos_iff.mpr ⟨c, hc, hm⟩
    exact ⟨hwriter hpos, hacc.exclusive (hwriter hpos)⟩
  · intro c hc hrd
    have hpos : 0 < s.callers.countP Caller.reading := List.countP_pos_iff.mpr ⟨c, hc, hrd⟩
    have hreaders : 0 < s.mu.readers := by omega
    refine ⟨?_, hreaders⟩
    cases hwr : s.mu.writer with
    | false => rfl
    | true =>
      have := hacc.exclusive hwr
      omega

/-- A caller alone on an unlocked store goes through the same statements, with the same
effect on mutex and map, as the methods `Update` and `Read` above: `Update` stops blocked in
its deferred `Lock` after the assignment (after the panic on a nil map), `Read` returns the
two-valued index. -/
theorem solo_agrees (inventory : Option Inventory) (m : Inventory) (k : String) (v : Int) :
    (∃ s, runMoves [0, 0] (System.init (some m) [.update k v]) = some s ∧ move 0 s = none ∧
        s.callers = [{ call := .update k v, pos := .deferred false, result := none }] ∧
        s.mu = (Update { mu := RWMutex.free, inventory := some m } k v).mim.mu ∧
        s.inventory = (Update { mu := RWMutex.free, inventory := some m } k v).mim.inventory) ∧
      (∃ s, runMoves [0, 0] (System.init none [.update k v]) = some s ∧ move 0 s = none ∧
        s.callers = [{ call := .update k v, pos := .deferred true, result := none }] ∧
        s.mu = (Update InventoryManager.zero k v).mim.mu ∧
        s.inventory = (Update InventoryManager.zero k v).mim.inventory) ∧
      (∃ s, runMoves [0, 0, 0] (System.init inventory [.read k]) = some s ∧ move 0 s = none ∧
        s.callers = [{ call := .read k, pos := .returned, result := some (index inventory k) }] ∧
        (Read { mu := RWMutex.free, inventory := inventory } k).exit
          = .returned (index inventory k) ∧
        s.mu = (Read { mu := RWMutex.free, inventory := inventory } k).mim.mu ∧
        s.inventory = (Read { mu := RWMutex.free, inventory := inventory } k).mim.inventory) :=
  ⟨⟨_, rfl, rfl, rfl, rfl, rfl⟩, ⟨_, rfl, rfl, rfl, rfl, rfl⟩, ⟨_, rfl, rfl, rfl, rfl, rfl, rfl⟩⟩

end Mutexes

/-! ## Mutual exclusion in both stores -/

/-- In the channel-owned store only the owner's receive changes the map. -/
theorem Channels.step_inventory (e : Channels.Event) (o o' : Channels.Owner)
    (hstep : Channels.step e o = some o') :
    (∃ i, e = .select (.recv i)) ∨ o'.inventory = o.inventory := by
  cases e with
  | select pick =>
    cases pick with
    | ctxDone =>
      right
      rw [Channels.select_ctxDone_eq o o' hstep]
    | recv i => exact Or.inl ⟨i, rfl⟩
  | cancel =>
    simp only [Channels.step, Option.some.injEq] at hstep
    rw [← hstep]
    exact Or.inr rfl
  | send f =>
    simp only [Channels.step, Option.some.injEq] at hstep
    rw [← hstep]
    exact Or.inr rfl

/-- In the channel-owned store what the callers and the cancellation do does not depend on
the map: they never look at it. -/
theorem Channels.step_blind (e : Channels.Event) (o : Channels.Owner) (m : Inventory)
    (he : ∀ pick, e ≠ .select pick) :
    Channels.step e { o with inventory := m }
      = (Channels.step e o).map fun o' => { o' with inventory := m } := by
  cases e with
  | select pick => exact absurd rfl (he pick)
  | cancel => rfl
  | send f => rfl

/-- C10: mutual exclusion on the map, in every interleaving.  Lock-guarded store: in every
state that any number of concurrent `Update` and `Read` calls can reach, started on an unlocked
store in any interleaving of their statements, at most one caller is assigning to the map, no
caller is looking up in the map while one assigns, a caller assigning holds the mutex for
writing with no reader, and a caller looking up holds it for reading with no writer.
Channel-owned store: whatever happens, the map changes only in the owner's receive, and what
the callers and the cancellation do neither changes the map nor depends on it. -/
theorem mutual_exclusion (inventory : Option Inventory) (calls : List Mutexes.Call)
    (s : Mutexes.System)
    (hreach : Mutexes.Reaches (Mutexes.System.init inventory calls) s) :
    (s.callers.countP Mutexes.Caller.mutating ≤ 1 ∧
      (0 < s.callers.countP Mutexes.Caller.mutating →
        s.callers.countP Mutexes.Caller.reading = 0) ∧
      (∀ c ∈ s.callers, c.mutating = true → s.mu.writer = true ∧ s.mu.readers = 0) ∧
      (∀ c ∈ s.callers, c.reading = true → s.mu.writer = false ∧ 0 < s.mu.readers)) ∧
    (∀ (e : Channels.Event) (o o' : Channels.Owner), Channels.step e o = some o' →
      (∃ i, e = .select (.recv i)) ∨ o'.inventory = o.inventory) ∧
    (∀ (e : Channels.Event) (o : Channels.Owner) (m : Inventory),
      (∀ pick, e ≠ .select pick) →
      Channels.step e { o with inventory := m }
        = (Channels.step e o).map fun o' => { o' with inventory := m }) :=
  ⟨Mutexes.exclusion_of_accounted s
      (Mutexes.accounted_reaches _ s hreach (Mutexes.accounted_init inventory calls)),
    Channels.step_inventory, Channels.step_blind⟩

theorem mutual_exclusion_witness :
    (Mutexes.Reaches
        (Mutexes.System.init (some Inventory.empty) [.update "a" 1, .read "a", .update "b" 2])
        Mutexes.writerInside ∧
      Mutexes.writerInside.callers.countP Mutexes.Caller.mutating = 1 ∧
      Mutexes.writerInside.callers.countP Mutexes.Caller.reading = 0 ∧
      Mutexes.writerInside.mu.writer = true ∧ Mutexes.writerInside.mu.readers = 0) ∧
    (Mutexes.Reaches
        (Mutexes.System.init (some Inventory.empty) [.read "a", .update "a" 1, .read "b"])
        Mutexes.readersInside ∧
      Mutexes.readersInside.callers.countP Mutexes.Caller.reading = 2 ∧
      Mutexes.readersInside.callers.countP Mutexes.Caller.mutating ≤ 1 ∧
      ∀ c ∈ Mutexes.readersInside.callers, c.reading = true →
        Mutexes.readersInside.mu.writer = false ∧ 0 < Mutexes.readersInside.mu.readers) :=
  have hw : Mutexes.Reaches
      (Mutexes.System.init (some Inventory.empty) [.update "a" 1, .read "a", .update "b" 2])
      Mutexes.writerInside := Mutexes.reaches_of_runMoves [0] _ _ rfl
  have hr : Mutexes.Reaches
      (Mutexes.System.init (some Inventory.empty) [.read "a", .update "a" 1, .read "b"])
      Mutexes.readersInside := Mutexes.reaches_of_runMoves [0, 2] _ _ rfl
  have ew := mutual_exclusion _ _ Mutexes.writerInside hw
  have er := mutual_exclusion _ _ Mutexes.readersInside hr
  ⟨⟨hw, by decide, ew.1.2.1 (by decide), (ew.1.2.2.1 _ (List.mem_cons_self _ _) rfl).1,
      (ew.1.2.2.1 _ (List.mem_cons_self _ _) rfl).2⟩,
    ⟨hr, by decide, er.1.1, er.1.2.2.2⟩⟩
